import Mathlib

/-!
# qbittorrent-cli: the `remove` command (`cmd/torrent_remove.go`)

A shallow embedding of the closure assigned to `command.Run` inside
`RunTorrentRemove`: the selection of target hashes (lines 63-123) and the
removal stage (lines 125-157).  The remote service is a `Client` value whose
two operations are functions of their arguments; every call made to it is
recorded, in order, in a list of `Call`s, so that statements about which
remote calls are issued can be made about the model.
-/

namespace QbtCli

/-! ## Data model -/

/-- Query options `qbittorrent.TorrentFilterOptions`, restricted to the two fields the command
assigns; the empty string is Go's zero value, meaning the field is not set. -/
structure TorrentFilterOptions where
  Filter : String
  Category : String
deriving DecidableEq

/-- Modelled from the spec: the torrent record `qbittorrent.Torrent` is declared by the client
library, not in `torrent_remove.go`; the spec's data model gives it a hash and a set of tags,
which are the only parts the command reads. -/
structure Torrent where
  Hash : String
  Tags : List String
deriving DecidableEq

/-- A remote call issued by the command. -/
inductive Call where
  | GetTorrentsCtx (options : TorrentFilterOptions)
  | DeleteTorrentsCtx (hashes : List String) (deleteFiles : Bool)
deriving DecidableEq

/-- The connected client handle `qb`: an inventory query and a delete operation, each either
returning or failing with an error message. -/
structure Client where
  GetTorrentsCtx : TorrentFilterOptions → Except String (List Torrent)
  DeleteTorrentsCtx : List String → Bool → Except String Unit

/-- The command-line flags of `remove` (lines 17-26 and 34-41). -/
structure Flags where
  dryRun : Bool
  removeAll : Bool
  deleteFiles : Bool
  hashes : List String
  includeCategory : List String
  includeTags : List String
  excludeTags : List String
  filter : String
deriving DecidableEq

/-- How a run of the command ends. -/
inductive Outcome where
  /-- Line 71: `log.Fatalf("could not get torrents for filter: ...")`. -/
  | fatalFilter (filter : String) (err : String)
  /-- Line 86: `log.Fatalf("could not get torrents for category: ...")`. -/
  | fatalCategory (category : String) (err : String)
  /-- Line 122: `specifiedHashes.Union(hashSet)` with `hashSet` the nil interface value. -/
  | panicNilUnion
  /-- Lines 125-128: "No torrents found to remove". -/
  | noTorrents
  /-- Lines 130-135: dry run, nothing is done with the target `hashes`. -/
  | dryRun (hashes : List String)
  /-- Lines 146-149: a delete batch failed. -/
  | deleteFailed (err : String)
  /-- The batch loop does not terminate (only for a batch size of zero). -/
  | batchDiverged
  /-- Lines 152-156: every batch of the target `hashes` was deleted. -/
  | removed (hashes : List String)
deriving DecidableEq

/-- The order in which `ToSlice` of the set library enumerates a set.  Go leaves it unspecified,
so it is a parameter of the model: any duplicate-free enumeration of the members. -/
structure SliceOrder where
  ToSlice : Finset String → List String
  nodup : ∀ s, (ToSlice s).Nodup
  mem_iff : ∀ s h, h ∈ ToSlice s ↔ h ∈ s

/-- The code points of a hash, the sort key of `sortedOrder`. -/
def hashKey (s : String) : List Nat := s.data.map Char.toNat

/-- Hashes compared by their code points, lexicographically. -/
def keyLE (a b : String) : Prop := hashKey a ≤ hashKey b

instance : DecidableRel keyLE := fun a b => inferInstanceAs (Decidable (hashKey a ≤ hashKey b))

instance : IsTrans String keyLE := ⟨fun _ _ _ h1 h2 => @le_trans (List Nat) _ _ _ _ h1 h2⟩

instance : IsTotal String keyLE := ⟨fun a b => le_total (hashKey a) (hashKey b)⟩

instance : IsAntisymm String keyLE :=
  ⟨fun a b h1 h2 => by
    have hkey : hashKey a = hashKey b := le_antisymm h1 h2
    have hdata : a.data = b.data := by
      apply List.map_injective_iff.mpr _ hkey
      intro x y hxy
      exact Char.ext (UInt32.ext (by simpa [Char.toNat, UInt32.toNat] using hxy))
    exact String.ext hdata⟩

/-- An evaluable enumeration order: ascending by code points. -/
def sortedOrder : SliceOrder where
  ToSlice s := Quot.liftOn s.val (fun l => List.insertionSort keyLE l)
    (fun a b (h : a.Perm b) =>
      List.eq_of_perm_of_sorted
        (((List.perm_insertionSort _ a).trans h).trans (List.perm_insertionSort _ b).symm)
        (List.sorted_insertionSort _ a) (List.sorted_insertionSort _ b))
  nodup s := by
    obtain ⟨⟨l⟩, hl⟩ := s
    exact (List.perm_insertionSort _ l).nodup_iff.mpr hl
  mem_iff s h := by
    obtain ⟨⟨l⟩, hl⟩ := s
    exact (List.perm_insertionSort _ l).mem_iff

/-! ## Helpers of package `cmd` defined outside `torrent_remove.go` -/

/-- Modelled from the spec: `validateTag`, whose source is missing.  The spec calls the test "the
torrent has at least one tag in" the given list, a set-intersection-nonempty test with
case-sensitive exact string match.  The first result (discarded by the caller) is the matching
tag, the second tells whether there is one. -/
def validateTag (tags : List String) (torrentTags : List String) : String × Bool :=
  match torrentTags.find? (fun tag => decide (tag ∈ tags)) with
  | some tag => (tag, true)
  | none => ("", false)

/-- Modelled from the spec: the loop of `batchRequests`, whose source is missing.  From
index `start` of a list of length `n`, the callback is invoked on consecutive chunks of at most
`B` elements, stopping at the first failure.  The result holds the bounds passed to the callback,
in order, and the overall result; `none` means that `fuel` iterations were not enough. -/
def batchLoop {ε : Type} (B n : Nat) (fn : Nat → Nat → Except ε Unit) :
    Nat → Nat → Option (List (Nat × Nat) × Except ε Unit)
  | 0, start => if n ≤ start then some ([], .ok ()) else none
  | fuel + 1, start =>
    if n ≤ start then some ([], .ok ())
    else
      let stop := min (start + B) n
      match fn start stop with
      | .error e => some ([(start, stop)], .error e)
      | .ok _ => (batchLoop B n fn fuel (start + B)).map (fun r => ((start, stop) :: r.1, r.2))

/-- Modelled from the spec: `batchRequests`, whose source is missing.  It partitions the list
into consecutive chunks of at most `B` elements and invokes the callback once per chunk, in order,
with the chunk's start and end bounds, aborting at the first failure.  One iteration per element
is enough fuel whenever `B` is positive. -/
def batchRequests {ε : Type} (B : Nat) (hashes : List String) (fn : Nat → Nat → Except ε Unit) :
    Option (List (Nat × Nat) × Except ε Unit) :=
  batchLoop B hashes.length fn hashes.length 0

/-! ## The set library -/

/-- The union `s.Union(other)` of golang-set, where `other` is an interface value that may be nil
(`none`).  The sets built by `mapset.NewSet` convert their argument with the type assertion
`other.(*threadSafeSet[T])`, which panics on a nil interface value. -/
def mapsetUnion (s : Finset String) (other : Option (Finset String)) :
    Except Outcome (Finset String) :=
  match other with
  | some o => .ok (s ∪ o)
  | none => .error .panicNilUnion

/-! ## Selection (lines 63-123) -/

/-- Lines 73-75: add the hash of every returned torrent. -/
def addHashes (filterHashes : Finset String) (torrents : List Torrent) : Finset String :=
  torrents.foldl (fun s torrent => insert torrent.Hash s) filterHashes

/-- Lines 65-76: the state-filter query.  Returns the calls issued and either the fatal outcome
or the options value (shared with the category queries) and `filterHashes` (`none` is nil). -/
def filterQuery (client : Client) (filter : String) :
    List Call × Except Outcome (TorrentFilterOptions × Option (Finset String)) :=
  let options : TorrentFilterOptions := { Filter := "", Category := "" }
  if filter ≠ "" then
    let options := { options with Filter := filter }
    match client.GetTorrentsCtx options with
    | .error err => ([.GetTorrentsCtx options], .error (.fatalFilter filter err))
    | .ok torrents => ([.GetTorrentsCtx options], .ok (options, some (addHashes ∅ torrents)))
  else ([], .ok (options, none))

/-- Lines 90-100: the tag gate of one torrent; `false` stands for `continue`. -/
def keepTorrent (includeTags excludeTags : List String) (torrent : Torrent) : Bool :=
  if includeTags.length > 0 ∧ ¬ (validateTag includeTags torrent.Tags).2 = true then false
  else if excludeTags.length > 0 ∧ (validateTag excludeTags torrent.Tags).2 = true then false
  else true

/-- Lines 89-103: the loop over the torrents returned for one category. -/
def addGated (includeTags excludeTags : List String) (catTagHashes : Finset String) :
    List Torrent → Finset String
  | [] => catTagHashes
  | torrent :: rest =>
    if keepTorrent includeTags excludeTags torrent then
      addGated includeTags excludeTags (insert torrent.Hash catTagHashes) rest
    else addGated includeTags excludeTags catTagHashes rest

/-- Lines 81-104: the loop over the categories, on the shared `options` value. -/
def categoryLoop (client : Client) (includeTags excludeTags : List String) :
    TorrentFilterOptions → Finset String → List String → List Call × Except Outcome (Finset String)
  | _, catTagHashes, [] => ([], .ok catTagHashes)
  | options, catTagHashes, category :: rest =>
    let options := { options with Category := category }
    match client.GetTorrentsCtx options with
    | .error err => ([.GetTorrentsCtx options], .error (.fatalCategory category err))
    | .ok torrents =>
      let r := categoryLoop client includeTags excludeTags options
        (addGated includeTags excludeTags catTagHashes torrents) rest
      (.GetTorrentsCtx options :: r.1, r.2)

/-- Lines 78-105: the category queries; `catTagHashes` stays nil without categories. -/
def categoryQueries (client : Client) (includeCategory includeTags excludeTags : List String)
    (options : TorrentFilterOptions) : List Call × Except Outcome (Option (Finset String)) :=
  if includeCategory.length > 0 then
    let r := categoryLoop client includeTags excludeTags options ∅ includeCategory
    (r.1, r.2.map some)
  else ([], .ok none)

/-- Lines 111-119: the combined set `hashSet`. -/
def combine (filterHashes catTagHashes : Option (Finset String)) : Option (Finset String) :=
  match filterHashes, catTagHashes with
  | some f, some c => some (f ∩ c)
  | some f, none => some f
  | none, c => c

/-- Lines 107-123: the new value of `hashes`. -/
def mergeHashes (order : SliceOrder) (removeAll : Bool) (hashes : List String)
    (filterHashes catTagHashes : Option (Finset String)) : Except Outcome (List String) :=
  if removeAll then .ok ["all"]
  else
    let hashSet := combine filterHashes catTagHashes
    let specifiedHashes := hashes.toFinset
    (mapsetUnion specifiedHashes hashSet).map order.ToSlice

/-- Lines 63-123: the selection; the calls issued and the target `hashes` or a failure. -/
def selectHashes (order : SliceOrder) (client : Client) (flags : Flags) :
    List Call × Except Outcome (List String) :=
  match filterQuery client flags.filter with
  | (calls, .error o) => (calls, .error o)
  | (calls, .ok (options, filterHashes)) =>
    match categoryQueries client flags.includeCategory flags.includeTags flags.excludeTags
        options with
    | (calls', .error o) => (calls ++ calls', .error o)
    | (calls', .ok catTagHashes) =>
      (calls ++ calls', mergeHashes order flags.removeAll flags.hashes filterHashes catTagHashes)

/-! ## Removal (lines 125-157) -/

/-- Go's `hashes[start:stop]`. -/
def slice (hashes : List String) (start stop : Nat) : List String :=
  (hashes.drop start).take (stop - start)

/-- Lines 125-157: what is done with the target `hashes`. -/
def removeHashes (B : Nat) (client : Client) (flags : Flags) (hashes : List String) :
    List Call × Outcome :=
  if hashes.length = 0 ∧ ¬ flags.removeAll = true then ([], .noTorrents)
  else if flags.dryRun then ([], .dryRun hashes)
  else
    match batchRequests B hashes
        (fun start stop => client.DeleteTorrentsCtx (slice hashes start stop) flags.deleteFiles) with
    | none => ([], .batchDiverged)
    | some (bounds, result) =>
      (bounds.map (fun b => Call.DeleteTorrentsCtx (slice hashes b.1 b.2) flags.deleteFiles),
        match result with
        | .error err => .deleteFailed err
        | .ok _ => .removed hashes)

/-- The body of `command.Run` from line 63 on: the remote calls issued, in order, and the way the
run ends.  `B` is the batch size of `batchRequests`. -/
def RunTorrentRemove (order : SliceOrder) (B : Nat) (client : Client) (flags : Flags) :
    List Call × Outcome :=
  match selectHashes order client flags with
  | (calls, .error o) => (calls, o)
  | (calls, .ok hashes) =>
    let r := removeHashes B client flags hashes
    (calls ++ r.1, r.2)

/-! ## Vocabulary of the statements -/

/-- The call is an inventory query that the client answers with a list of torrents. -/
def QueryOk (client : Client) (call : Call) : Prop :=
  ∃ options torrents, call = .GetTorrentsCtx options ∧ client.GetTorrentsCtx options = .ok torrents

/-- The calls of a selection in which every query is answered: the state-filter query when a
filter is given, then one query per category on the same options value. -/
def allQueries (flags : Flags) : List Call :=
  (if flags.filter = "" then [] else [Call.GetTorrentsCtx ⟨flags.filter, ""⟩]) ++
    flags.includeCategory.map (fun c => Call.GetTorrentsCtx ⟨flags.filter, c⟩)

/-- The category stage as the spec words it: each category is queried with options restricted to
that category alone. -/
def categoryOnlyQueries (client : Client) (includeCategory includeTags excludeTags : List String) :
    List Call × Except Outcome (Option (Finset String)) :=
  categoryQueries client includeCategory includeTags excludeTags ⟨"", ""⟩

/-! ## Concrete inputs -/

/-- A remote that answers every query: torrents B, C, D for category "tv", and A, B, C
otherwise. -/
def exClient : Client where
  GetTorrentsCtx options :=
    .ok (if options.Category = "tv" then [⟨"B", ["x"]⟩, ⟨"C", []⟩, ⟨"D", ["y"]⟩]
      else [⟨"A", []⟩, ⟨"B", ["x"]⟩, ⟨"C", []⟩])
  DeleteTorrentsCtx _ _ := .ok ()

/-- A remote that rejects every query. -/
def rejectingClient : Client where
  GetTorrentsCtx _ := .error "invalid filter"
  DeleteTorrentsCtx _ _ := .ok ()

/-- A remote that fails on the queries for category "tv" and answers the others. -/
def flakyClient : Client where
  GetTorrentsCtx options :=
    if options.Category = "tv" then .error "unreachable" else .ok [⟨"A", []⟩]
  DeleteTorrentsCtx _ _ := .ok ()

/-- A remote that honours the state filter: one torrent without a filter, none with one. -/
def filteringClient : Client where
  GetTorrentsCtx options := .ok (if options.Filter = "" then [⟨"H", []⟩] else [])
  DeleteTorrentsCtx _ _ := .ok ()

/-- No flag given. -/
def noFlags : Flags :=
  { dryRun := false, removeAll := false, deleteFiles := false, hashes := [],
    includeCategory := [], includeTags := [], excludeTags := [], filter := "" }

/-! ## Lemmas on the set-building loops -/

theorem mem_addHashes (torrents : List Torrent) (s : Finset String) (h : String) :
    h ∈ addHashes s torrents ↔ h ∈ s ∨ ∃ t ∈ torrents, t.Hash = h := by
  induction torrents generalizing s with
  | nil => simp [addHashes]
  | cons t rest ih =>
    have hstep : addHashes s (t :: rest) = addHashes (insert t.Hash s) rest := rfl
    rw [hstep, ih, Finset.mem_insert]
    constructor
    · rintro ((h1 | h1) | ⟨u, hu, hh⟩)
      · exact Or.inr ⟨t, List.mem_cons_self _ _, h1.symm⟩
      · exact Or.inl h1
      · exact Or.inr ⟨u, List.mem_cons_of_mem _ hu, hh⟩
    · rintro (h1 | ⟨u, hu, hh⟩)
      · exact Or.inl (Or.inr h1)
      · rcases List.mem_cons.mp hu with rfl | hu
        · exact Or.inl (Or.inl hh.symm)
        · exact Or.inr ⟨u, hu, hh⟩

theorem validateTag_snd (tags torrentTags : List String) :
    (validateTag tags torrentTags).2 = true ↔ ∃ tag ∈ torrentTags, tag ∈ tags := by
  unfold validateTag
  cases hfind : torrentTags.find? (fun tag => decide (tag ∈ tags)) with
  | some tag =>
    have hmem := List.mem_of_find?_eq_some hfind
    have hp := List.find?_some hfind
    simp only [true_iff]
    exact ⟨tag, hmem, by simpa using hp⟩
  | none =>
    simp only [Bool.false_eq_true, false_iff]
    rintro ⟨tag, hmem, htag⟩
    have := List.find?_eq_none.mp hfind tag hmem
    simp [htag] at this

theorem keepTorrent_iff (includeTags excludeTags : List String) (torrent : Torrent) :
    keepTorrent includeTags excludeTags torrent = true ↔
      (includeTags = [] ∨ ∃ tag ∈ torrent.Tags, tag ∈ includeTags) ∧
      (excludeTags = [] ∨ ∀ tag ∈ torrent.Tags, tag ∉ excludeTags) := by
  unfold keepTorrent
  have hinc := validateTag_snd includeTags torrent.Tags
  have hexc := validateTag_snd excludeTags torrent.Tags
  have hl : ∀ l : List String, l.length > 0 ↔ l ≠ [] := fun l => List.length_pos
  by_cases h1 : includeTags = [] <;> by_cases h2 : excludeTags = [] <;>
    by_cases h3 : (validateTag includeTags torrent.Tags).2 = true <;>
    by_cases h4 : (validateTag excludeTags torrent.Tags).2 = true <;>
    simp_all

theorem mem_addGated (includeTags excludeTags : List String) (torrents : List Torrent)
    (s : Finset String) (h : String) :
    h ∈ addGated includeTags excludeTags s torrents ↔
      h ∈ s ∨ ∃ t ∈ torrents, t.Hash = h ∧ keepTorrent includeTags excludeTags t = true := by
  induction torrents generalizing s with
  | nil => simp [addGated]
  | cons t rest ih =>
    by_cases hk : keepTorrent includeTags excludeTags t = true
    · have hstep : addGated includeTags excludeTags s (t :: rest) =
          addGated includeTags excludeTags (insert t.Hash s) rest := by
        simp [addGated, hk]
      rw [hstep, ih, Finset.mem_insert]
      constructor
      · rintro ((h1 | h1) | ⟨u, hu, hh⟩)
        · exact Or.inr ⟨t, List.mem_cons_self _ _, h1.symm, hk⟩
        · exact Or.inl h1
        · exact Or.inr ⟨u, List.mem_cons_of_mem _ hu, hh⟩
      · rintro (h1 | ⟨u, hu, hh⟩)
        · exact Or.inl (Or.inr h1)
        · rcases List.mem_cons.mp hu with rfl | hu
          · exact Or.inl (Or.inl hh.1.symm)
          · exact Or.inr ⟨u, hu, hh⟩
    · have hstep : addGated includeTags excludeTags s (t :: rest) =
          addGated includeTags excludeTags s rest := by
        simp [addGated, hk]
      rw [hstep, ih]
      constructor
      · rintro (h1 | ⟨u, hu, hh⟩)
        · exact Or.inl h1
        · exact Or.inr ⟨u, List.mem_cons_of_mem _ hu, hh⟩
      · rintro (h1 | ⟨u, hu, hh⟩)
        · exact Or.inl h1
        · rcases List.mem_cons.mp hu with rfl | hu
          · exact absurd hh.2 hk
          · exact Or.inr ⟨u, hu, hh⟩

/-! ## Lemmas on the queries -/

theorem filterQuery_empty (client : Client) :
    filterQuery client "" = ([], .ok (⟨"", ""⟩, none)) := by
  simp [filterQuery]

theorem filterQuery_ok (client : Client) (filter : String) (torrents : List Torrent)
    (hf : filter ≠ "") (hq : client.GetTorrentsCtx ⟨filter, ""⟩ = .ok torrents) :
    filterQuery client filter =
      ([.GetTorrentsCtx ⟨filter, ""⟩], .ok (⟨filter, ""⟩, some (addHashes ∅ torrents))) := by
  simp [filterQuery, hf, hq]

theorem filterQuery_error (client : Client) (filter err : String)
    (hf : filter ≠ "") (hq : client.GetTorrentsCtx ⟨filter, ""⟩ = .error err) :
    filterQuery client filter =
      ([.GetTorrentsCtx ⟨filter, ""⟩], .error (.fatalFilter filter err)) := by
  simp [filterQuery, hf, hq]

theorem categoryLoop_cons_ok (client : Client) (inc exc : List String)
    (options : TorrentFilterOptions) (acc : Finset String) (category : String)
    (rest : List String) (torrents : List Torrent)
    (hq : client.GetTorrentsCtx ⟨options.Filter, category⟩ = .ok torrents) :
    categoryLoop client inc exc options acc (category :: rest) =
      (.GetTorrentsCtx ⟨options.Filter, category⟩ ::
          (categoryLoop client inc exc ⟨options.Filter, category⟩
            (addGated inc exc acc torrents) rest).1,
        (categoryLoop client inc exc ⟨options.Filter, category⟩
            (addGated inc exc acc torrents) rest).2) := by
  simp [categoryLoop, hq]

theorem categoryLoop_cons_error (client : Client) (inc exc : List String)
    (options : TorrentFilterOptions) (acc : Finset String) (category : String)
    (rest : List String) (err : String)
    (hq : client.GetTorrentsCtx ⟨options.Filter, category⟩ = .error err) :
    categoryLoop client inc exc options acc (category :: rest) =
      ([.GetTorrentsCtx ⟨options.Filter, category⟩], .error (.fatalCategory category err)) := by
  simp [categoryLoop, hq]

/-- The category loop either runs through every category, all queries answered, or stops at the
first query that fails. -/
theorem categoryLoop_trace (client : Client) (inc exc : List String) (cats : List String)
    (options : TorrentFilterOptions) (acc : Finset String) :
    ((∃ s, (categoryLoop client inc exc options acc cats).2 = .ok s) ∧
      (categoryLoop client inc exc options acc cats).1 =
        cats.map (fun c => Call.GetTorrentsCtx ⟨options.Filter, c⟩) ∧
      ∀ call ∈ (categoryLoop client inc exc options acc cats).1, QueryOk client call) ∨
    (∃ pre cat err,
      (categoryLoop client inc exc options acc cats).1 =
        pre ++ [Call.GetTorrentsCtx ⟨options.Filter, cat⟩] ∧
      (∀ call ∈ pre, QueryOk client call) ∧ cat ∈ cats ∧
      client.GetTorrentsCtx ⟨options.Filter, cat⟩ = .error err ∧
      (categoryLoop client inc exc options acc cats).2 = .error (.fatalCategory cat err)) := by
  induction cats generalizing options acc with
  | nil => exact Or.inl ⟨⟨acc, rfl⟩, rfl, by simp [categoryLoop]⟩
  | cons category rest ih =>
    cases hq : client.GetTorrentsCtx ⟨options.Filter, category⟩ with
    | error err =>
      refine Or.inr ⟨[], category, err, ?_, by simp, List.mem_cons_self _ _, hq, ?_⟩
      · rw [categoryLoop_cons_error _ _ _ _ _ _ _ _ hq]; rfl
      · rw [categoryLoop_cons_error _ _ _ _ _ _ _ _ hq]
    | ok torrents =>
      rw [categoryLoop_cons_ok _ _ _ _ _ _ _ _ hq]
      have hok : QueryOk client (.GetTorrentsCtx ⟨options.Filter, category⟩) :=
        ⟨_, torrents, rfl, hq⟩
      rcases ih ⟨options.Filter, category⟩ (addGated inc exc acc torrents) with
        ⟨hs, hcalls, hall⟩ | ⟨pre, cat, err, hcalls, hpre, hcat, hfail, hres⟩
      · refine Or.inl ⟨hs, ?_, ?_⟩
        · simp only [List.map_cons, hcalls]
        · intro call hcall
          rcases List.mem_cons.mp hcall with rfl | hcall
          · exact hok
          · exact hall call hcall
      · refine Or.inr ⟨.GetTorrentsCtx ⟨options.Filter, category⟩ :: pre, cat, err, ?_, ?_,
          List.mem_cons_of_mem _ hcat, hfail, hres⟩
        · simp only [hcalls, List.cons_append]
        · intro call hcall
          rcases List.mem_cons.mp hcall with rfl | hcall
          · exact hok
          · exact hpre call hcall

/-- With every category query answered, the loop issues one query per category, each carrying the
filter of the shared options, and accumulates the gated hashes. -/
theorem categoryLoop_ok (client : Client) (inc exc : List String) (cats : List String)
    (options : TorrentFilterOptions) (acc : Finset String) (tc : String → List Torrent)
    (hq : ∀ c ∈ cats, client.GetTorrentsCtx ⟨options.Filter, c⟩ = .ok (tc c)) :
    categoryLoop client inc exc options acc cats =
      (cats.map (fun c => Call.GetTorrentsCtx ⟨options.Filter, c⟩),
        .ok (cats.foldl (fun s c => addGated inc exc s (tc c)) acc)) := by
  induction cats generalizing options acc with
  | nil => rfl
  | cons category rest ih =>
    rw [categoryLoop_cons_ok _ _ _ _ _ _ _ _ (hq category (List.mem_cons_self _ _))]
    have ih' := ih ⟨options.Filter, category⟩ (addGated inc exc acc (tc category))
      (fun c hc => hq c (List.mem_cons_of_mem _ hc))
    rw [ih']
    rfl

theorem mem_foldl_addGated (inc exc : List String) (tc : String → List Torrent)
    (cats : List String) (acc : Finset String) (h : String) :
    h ∈ cats.foldl (fun s c => addGated inc exc s (tc c)) acc ↔
      h ∈ acc ∨ ∃ c ∈ cats, ∃ t ∈ tc c, t.Hash = h ∧ keepTorrent inc exc t = true := by
  induction cats generalizing acc with
  | nil => simp
  | cons category rest ih =>
    rw [List.foldl_cons, ih, mem_addGated]
    constructor
    · rintro ((h1 | ⟨t, ht, hh⟩) | ⟨c, hc, t, ht, hh⟩)
      · exact Or.inl h1
      · exact Or.inr ⟨category, List.mem_cons_self _ _, t, ht, hh⟩
      · exact Or.inr ⟨c, List.mem_cons_of_mem _ hc, t, ht, hh⟩
    · rintro (h1 | ⟨c, hc, t, ht, hh⟩)
      · exact Or.inl (Or.inl h1)
      · rcases List.mem_cons.mp hc with rfl | hc
        · exact Or.inl (Or.inr ⟨t, ht, hh⟩)
        · exact Or.inr ⟨c, hc, t, ht, hh⟩

theorem filterQuery_trace (client : Client) (filter : String) :
    (filter = "" ∧ filterQuery client filter = ([], .ok (⟨"", ""⟩, none))) ∨
    (filter ≠ "" ∧ ∃ torrents, client.GetTorrentsCtx ⟨filter, ""⟩ = .ok torrents ∧
      filterQuery client filter =
        ([.GetTorrentsCtx ⟨filter, ""⟩], .ok (⟨filter, ""⟩, some (addHashes ∅ torrents)))) ∨
    (filter ≠ "" ∧ ∃ err, client.GetTorrentsCtx ⟨filter, ""⟩ = .error err ∧
      filterQuery client filter =
        ([.GetTorrentsCtx ⟨filter, ""⟩], .error (.fatalFilter filter err))) := by
  by_cases hf : filter = ""
  · subst hf
    exact Or.inl ⟨rfl, filterQuery_empty client⟩
  · cases hq : client.GetTorrentsCtx ⟨filter, ""⟩ with
    | error err => exact Or.inr (Or.inr ⟨hf, err, rfl, filterQuery_error client filter err hf hq⟩)
    | ok torrents =>
      exact Or.inr (Or.inl ⟨hf, torrents, rfl, filterQuery_ok client filter torrents hf hq⟩)

theorem categoryQueries_nil (client : Client) (inc exc : List String)
    (options : TorrentFilterOptions) :
    categoryQueries client [] inc exc options = ([], .ok none) := by
  simp [categoryQueries]

theorem categoryQueries_ne_nil (client : Client) (cats inc exc : List String)
    (options : TorrentFilterOptions) (hc : cats ≠ []) :
    categoryQueries client cats inc exc options =
      ((categoryLoop client inc exc options ∅ cats).1,
        (categoryLoop client inc exc options ∅ cats).2.map some) := by
  have hpos : cats.length > 0 := List.length_pos.mpr hc
  simp [categoryQueries, hpos]

/-- The category stage either answers every query it issues, one per category and each with the
filter of the shared options, or stops at the first query that fails. -/
theorem categoryQueries_trace (client : Client) (cats inc exc : List String)
    (options : TorrentFilterOptions) :
    ((∃ cth, (categoryQueries client cats inc exc options).2 = .ok cth ∧
        (cth = none ↔ cats = [])) ∧
      (categoryQueries client cats inc exc options).1 =
        cats.map (fun c => Call.GetTorrentsCtx ⟨options.Filter, c⟩) ∧
      ∀ call ∈ (categoryQueries client cats inc exc options).1, QueryOk client call) ∨
    (∃ pre cat err,
      (categoryQueries client cats inc exc options).1 =
        pre ++ [Call.GetTorrentsCtx ⟨options.Filter, cat⟩] ∧
      (∀ call ∈ pre, QueryOk client call) ∧ cat ∈ cats ∧
      client.GetTorrentsCtx ⟨options.Filter, cat⟩ = .error err ∧
      (categoryQueries client cats inc exc options).2 = .error (.fatalCategory cat err)) := by
  by_cases hc : cats = []
  · subst hc
    rw [categoryQueries_nil]
    exact Or.inl ⟨⟨none, rfl, by simp⟩, rfl, by simp⟩
  · rw [categoryQueries_ne_nil _ _ _ _ _ hc]
    rcases categoryLoop_trace client inc exc cats options ∅ with
      ⟨⟨s, hs⟩, hcalls, hall⟩ | ⟨pre, cat, err, hcalls, hpre, hcat, hfail, hres⟩
    · refine Or.inl ⟨⟨some s, ?_, by simp [hc]⟩, hcalls, hall⟩
      simp only [hs]; rfl
    · refine Or.inr ⟨pre, cat, err, hcalls, hpre, hcat, hfail, ?_⟩
      simp only [hres]; rfl

/-- Shape of a selection: either every issued call is an answered query and the result is that of
the merge, or the calls end with the first failing query and the result is the fatal outcome
naming the filter or the category. -/
theorem selectHashes_trace (order : SliceOrder) (client : Client) (flags : Flags) :
    ((∀ call ∈ (selectHashes order client flags).1, QueryOk client call) ∧
      (selectHashes order client flags).1 =
        (if flags.filter = "" then [] else [Call.GetTorrentsCtx ⟨flags.filter, ""⟩]) ++
          flags.includeCategory.map (fun c => Call.GetTorrentsCtx ⟨flags.filter, c⟩) ∧
      ∃ fh cth, (fh = none ↔ flags.filter = "") ∧ (cth = none ↔ flags.includeCategory = []) ∧
        (selectHashes order client flags).2 =
          mergeHashes order flags.removeAll flags.hashes fh cth) ∨
    (∃ pre options err,
      (selectHashes order client flags).1 = pre ++ [Call.GetTorrentsCtx options] ∧
      (∀ call ∈ pre, QueryOk client call) ∧
      client.GetTorrentsCtx options = .error err ∧
      ((selectHashes order client flags).2 = .error (.fatalFilter flags.filter err) ∨
        (options.Category ∈ flags.includeCategory ∧
          (selectHashes order client flags).2 =
            .error (.fatalCategory options.Category err)))) := by
  rcases filterQuery_trace client flags.filter with
    ⟨hf, hfq⟩ | ⟨hf, torrents, hq, hfq⟩ | ⟨hf, err, hq, hfq⟩
  · rcases categoryQueries_trace client flags.includeCategory flags.includeTags
        flags.excludeTags ⟨"", ""⟩ with
      ⟨⟨cth, hres, hnone⟩, hcalls, hall⟩ | ⟨pre, cat, err, hcalls, hpre, hcat, hfail, hres⟩
    · left
      rcases hcq : categoryQueries client flags.includeCategory flags.includeTags
        flags.excludeTags ⟨"", ""⟩ with ⟨calls', res'⟩
      rw [hcq] at hres hcalls hall
      simp only at hres hcalls hall
      subst hres
      simp only [selectHashes, hfq, hcq, List.nil_append]
      simp only [hf, if_true, List.nil_append]
      exact ⟨hall, hcalls, none, cth, by simp, hnone, rfl⟩
    · right
      rcases hcq : categoryQueries client flags.includeCategory flags.includeTags
        flags.excludeTags ⟨"", ""⟩ with ⟨calls', res'⟩
      rw [hcq] at hres hcalls
      simp only at hres hcalls
      subst hres
      simp only [selectHashes, hfq, hcq, List.nil_append]
      exact ⟨pre, ⟨"", cat⟩, err, hcalls, hpre, hfail, Or.inr ⟨hcat, rfl⟩⟩
  · have hokq : QueryOk client (.GetTorrentsCtx ⟨flags.filter, ""⟩) := ⟨_, torrents, rfl, hq⟩
    rcases categoryQueries_trace client flags.includeCategory flags.includeTags
        flags.excludeTags ⟨flags.filter, ""⟩ with
      ⟨⟨cth, hres, hnone⟩, hcalls, hall⟩ | ⟨pre, cat, err, hcalls, hpre, hcat, hfail, hres⟩
    · left
      rcases hcq : categoryQueries client flags.includeCategory flags.includeTags
        flags.excludeTags ⟨flags.filter, ""⟩ with ⟨calls', res'⟩
      rw [hcq] at hres hcalls hall
      simp only at hres hcalls hall
      subst hres
      simp only [selectHashes, hfq, hcq, hf, if_false]
      refine ⟨?_, by rw [hcalls], some (addHashes ∅ torrents), cth, by simp [hf], hnone, rfl⟩
      intro call hcall
      rcases List.mem_append.mp hcall with h1 | h1
      · rw [List.mem_singleton.mp h1]; exact hokq
      · exact hall call h1
    · right
      rcases hcq : categoryQueries client flags.includeCategory flags.includeTags
        flags.excludeTags ⟨flags.filter, ""⟩ with ⟨calls', res'⟩
      rw [hcq] at hres hcalls
      simp only at hres hcalls
      subst hres
      simp only [selectHashes, hfq, hcq]
      refine ⟨.GetTorrentsCtx ⟨flags.filter, ""⟩ :: pre, ⟨flags.filter, cat⟩, err, ?_, ?_, hfail,
        Or.inr ⟨hcat, rfl⟩⟩
      · rw [hcalls]; rfl
      · intro call hcall
        rcases List.mem_cons.mp hcall with rfl | h1
        · exact hokq
        · exact hpre call h1
  · right
    simp only [selectHashes, hfq]
    exact ⟨[], ⟨flags.filter, ""⟩, err, rfl, by simp, hq, Or.inl rfl⟩

/-! ## Lemmas on the whole run -/

theorem categoryLoop_calls_initial (client : Client) (inc exc : List String) (cats : List String)
    (options : TorrentFilterOptions) (acc : Finset String) :
    (categoryLoop client inc exc options acc cats).1 <+:
      cats.map (fun c => Call.GetTorrentsCtx ⟨options.Filter, c⟩) := by
  induction cats generalizing options acc with
  | nil => exact List.prefix_refl _
  | cons category rest ih =>
    cases hq : client.GetTorrentsCtx ⟨options.Filter, category⟩ with
    | error err =>
      rw [categoryLoop_cons_error _ _ _ _ _ _ _ _ hq]
      exact ⟨rest.map (fun c => Call.GetTorrentsCtx ⟨options.Filter, c⟩), rfl⟩
    | ok torrents =>
      rw [categoryLoop_cons_ok _ _ _ _ _ _ _ _ hq]
      obtain ⟨t, ht⟩ := ih ⟨options.Filter, category⟩ (addGated inc exc acc torrents)
      exact ⟨t, by simp only [List.map_cons, List.cons_append, ← ht]⟩

/-- The calls of a selection are an initial segment of `allQueries`, whatever `removeAll` is. -/
theorem selectHashes_calls_initial (order : SliceOrder) (client : Client) (flags : Flags) :
    (selectHashes order client flags).1 <+: allQueries flags := by
  rcases selectHashes_trace order client flags with
    ⟨_, hcalls, _⟩ | ⟨pre, options, err, hcalls, hpre, hfail, hres⟩
  · rw [hcalls]; exact List.prefix_refl _
  · rcases filterQuery_trace client flags.filter with
      ⟨hf, hfq⟩ | ⟨hf, torrents, hq, hfq⟩ | ⟨hf, err', hq, hfq⟩
    · by_cases hc : flags.includeCategory = []
      · simp [selectHashes, hfq, hc, categoryQueries_nil]
      · have hp := categoryLoop_calls_initial client flags.includeTags flags.excludeTags
          flags.includeCategory ⟨"", ""⟩ ∅
        have hsel : (selectHashes order client flags).1 =
            (categoryLoop client flags.includeTags flags.excludeTags ⟨"", ""⟩ ∅
              flags.includeCategory).1 := by
          simp only [selectHashes, hfq, categoryQueries_ne_nil _ _ _ _ _ hc]
          split <;> simp_all
        rw [hsel]
        simpa [allQueries, hf] using hp
    · by_cases hc : flags.includeCategory = []
      · simp [selectHashes, hfq, hc, categoryQueries_nil, allQueries, hf]
      · have hp := categoryLoop_calls_initial client flags.includeTags flags.excludeTags
          flags.includeCategory ⟨flags.filter, ""⟩ ∅
        have hsel : (selectHashes order client flags).1 =
            Call.GetTorrentsCtx ⟨flags.filter, ""⟩ ::
            (categoryLoop client flags.includeTags flags.excludeTags ⟨flags.filter, ""⟩ ∅
              flags.includeCategory).1 := by
          simp only [selectHashes, hfq, categoryQueries_ne_nil _ _ _ _ _ hc]
          split <;> simp_all
        rw [hsel]
        simpa [allQueries, hf] using hp
    · simp only [selectHashes, hfq, allQueries, hf, if_false]
      exact ⟨_, rfl⟩

theorem selectHashes_no_delete (order : SliceOrder) (client : Client) (flags : Flags)
    (hashes : List String) (deleteFiles : Bool) :
    Call.DeleteTorrentsCtx hashes deleteFiles ∉ (selectHashes order client flags).1 := by
  intro hmem
  have h := (selectHashes_calls_initial order client flags).subset hmem
  simp only [allQueries, List.mem_append, List.mem_map] at h
  rcases h with h | ⟨c, _, h⟩
  · split at h <;> simp at h
  · exact Call.noConfusion h

theorem removeHashes_calls_delete (B : Nat) (client : Client) (flags : Flags)
    (hashes : List String) :
    ∀ call ∈ (removeHashes B client flags hashes).1,
      ∃ hs, call = Call.DeleteTorrentsCtx hs flags.deleteFiles := by
  intro call hcall
  unfold removeHashes at hcall
  split at hcall
  · simp at hcall
  · split at hcall
    · simp at hcall
    · split at hcall
      · simp at hcall
      · simp only [List.mem_map] at hcall
        obtain ⟨b, _, hb⟩ := hcall
        exact ⟨_, hb.symm⟩

theorem removeHashes_dryRun (B : Nat) (client : Client) (flags : Flags) (hashes : List String)
    (hdry : flags.dryRun = true) : (removeHashes B client flags hashes).1 = [] := by
  unfold removeHashes
  split
  · rfl
  · simp [hdry]

theorem RunTorrentRemove_error (order : SliceOrder) (B : Nat) (client : Client) (flags : Flags)
    (o : Outcome) (h : (selectHashes order client flags).2 = .error o) :
    RunTorrentRemove order B client flags = ((selectHashes order client flags).1, o) := by
  unfold RunTorrentRemove
  rcases hsel : selectHashes order client flags with ⟨calls, res⟩
  rw [hsel] at h
  simp only at h
  subst h
  rfl

theorem RunTorrentRemove_ok (order : SliceOrder) (B : Nat) (client : Client) (flags : Flags)
    (hashes : List String) (h : (selectHashes order client flags).2 = .ok hashes) :
    RunTorrentRemove order B client flags =
      ((selectHashes order client flags).1 ++ (removeHashes B client flags hashes).1,
        (removeHashes B client flags hashes).2) := by
  unfold RunTorrentRemove
  rcases hsel : selectHashes order client flags with ⟨calls, res⟩
  rw [hsel] at h
  simp only at h
  subst h
  rfl

/-- Against a remote that answers every query, every call of a selection is an answered query. -/
theorem selectHashes_queryOk (order : SliceOrder) (client : Client) (flags : Flags)
    (hans : ∀ options, ∃ torrents, client.GetTorrentsCtx options = .ok torrents) :
    ∀ call ∈ (selectHashes order client flags).1, QueryOk client call := by
  intro call hmem
  have h := (selectHashes_calls_initial order client flags).subset hmem
  have hq : ∃ options, call = Call.GetTorrentsCtx options := by
    simp only [allQueries, List.mem_append, List.mem_map] at h
    rcases h with h | ⟨c, _, h⟩
    · split at h
      · simp at h
      · exact ⟨_, List.mem_singleton.mp h⟩
    · exact ⟨_, h.symm⟩
  obtain ⟨options, rfl⟩ := hq
  obtain ⟨torrents, hok⟩ := hans options
  exact ⟨options, torrents, rfl, hok⟩

/-! ## Claims on `removeAll`, dry runs and failing queries -/

/-- C1 (counterexample): with `removeAll` set and a state filter that the remote rejects, the
selection issues the filter query and ends in the fatal outcome of line 71; no target, and in
particular not the target `["all"]`, is computed. -/
theorem removeAll_target_counterexample :
    ({ noFlags with removeAll := true, filter := "bogus" } : Flags).removeAll = true ∧
    selectHashes sortedOrder rejectingClient { noFlags with removeAll := true, filter := "bogus" } =
      ([.GetTorrentsCtx ⟨"bogus", ""⟩], .error (.fatalFilter "bogus" "invalid filter")) ∧
    (selectHashes sortedOrder rejectingClient
      { noFlags with removeAll := true, filter := "bogus" }).2 ≠ .ok ["all"] := by
  refine ⟨rfl, rfl, ?_⟩
  intro h
  cases h

/-- C1 (amended): when `removeAll` is set and every inventory query the selection issues is
answered, the computed target is exactly `["all"]`, whatever the filter, the categories, the tag
lists, the explicit hashes and the answers are. -/
theorem removeAll_target (order : SliceOrder) (client : Client) (flags : Flags)
    (hall : flags.removeAll = true)
    (hq : ∀ options, Call.GetTorrentsCtx options ∈ (selectHashes order client flags).1 →
      ∃ torrents, client.GetTorrentsCtx options = .ok torrents) :
    (selectHashes order client flags).2 = .ok ["all"] := by
  rcases selectHashes_trace order client flags with
    ⟨_, _, fh, cth, _, _, hres⟩ | ⟨pre, options, err, hcalls, _, hfail, _⟩
  · rw [hres]
    simp [mergeHashes, hall]
  · obtain ⟨torrents, hok⟩ := hq options (by rw [hcalls]; simp)
    rw [hok] at hfail
    cases hfail

/-- C1 (witness): `removeAll` with a filter, a category, tags and an explicit hash, against a
remote that answers. -/
theorem removeAll_target_witness :
    (selectHashes sortedOrder exClient
      { noFlags with removeAll := true, filter := "seeding", includeCategory := ["tv"],
                     excludeTags := ["x"], hashes := ["abc"] }).2 = .ok ["all"] :=
  removeAll_target sortedOrder exClient _ rfl (fun _ _ => ⟨_, rfl⟩)

/-- C6 (counterexample): with `removeAll` set, a filter and a category, the selection still issues
the state-filter query and the category query before it sets the target; and against a remote
that fails on the category the run ends in the fatal outcome of line 86, without any delete. -/
theorem removeAll_no_short_circuit_counterexample :
    selectHashes sortedOrder exClient
        { noFlags with removeAll := true, filter := "seeding", includeCategory := ["tv"] } =
      ([.GetTorrentsCtx ⟨"seeding", ""⟩, .GetTorrentsCtx ⟨"seeding", "tv"⟩], .ok ["all"]) ∧
    RunTorrentRemove sortedOrder 100 flakyClient
        { noFlags with removeAll := true, includeCategory := ["tv"] } =
      ([.GetTorrentsCtx ⟨"", "tv"⟩], .fatalCategory "tv" "unreachable") := by
  exact ⟨rfl, rfl⟩

/-- C6 (amended): with `removeAll` set the selection issues the same queries, in the same order,
as with `removeAll` unset, an initial segment of the state-filter query followed by one query per
category; either all of them are issued and answered and the target is `["all"]`, or the calls end
with the first failing query and the selection fails with the fatal outcome of that query. -/
theorem removeAll_queries (order : SliceOrder) (client : Client) (flags : Flags)
    (hall : flags.removeAll = true) :
    (selectHashes order client flags).1 =
        (selectHashes order client { flags with removeAll := false }).1 ∧
    (selectHashes order client flags).1 <+: allQueries flags ∧
    (((selectHashes order client flags).1 = allQueries flags ∧
        (∀ call ∈ (selectHashes order client flags).1, QueryOk client call) ∧
        (selectHashes order client flags).2 = .ok ["all"]) ∨
      ∃ pre options err,
        (selectHashes order client flags).1 = pre ++ [Call.GetTorrentsCtx options] ∧
        (∀ call ∈ pre, QueryOk client call) ∧
        client.GetTorrentsCtx options = .error err ∧
        ((selectHashes order client flags).2 = .error (.fatalFilter flags.filter err) ∨
          (options.Category ∈ flags.includeCategory ∧
            (selectHashes order client flags).2 =
              .error (.fatalCategory options.Category err)))) := by
  refine ⟨?_, selectHashes_calls_initial order client flags, ?_⟩
  · simp only [selectHashes]
    split
    · rfl
    · split <;> rfl
  · rcases selectHashes_trace order client flags with
      ⟨hok, hcalls, fh, cth, _, _, hres⟩ | hfail
    · refine Or.inl ⟨hcalls, hok, ?_⟩
      rw [hres]
      simp [mergeHashes, hall]
    · exact Or.inr hfail

/-- C6 (witness): `removeAll` with a filter and two categories, the first of which fails. -/
theorem removeAll_queries_witness :
    (selectHashes sortedOrder flakyClient
        { noFlags with removeAll := true, filter := "seeding",
                       includeCategory := ["tv", "movies"] }).1 =
      [.GetTorrentsCtx ⟨"seeding", ""⟩, .GetTorrentsCtx ⟨"seeding", "tv"⟩] ∧
    (selectHashes sortedOrder flakyClient
        { noFlags with removeAll := true, filter := "seeding",
                       includeCategory := ["tv", "movies"] }).1 =
      (selectHashes sortedOrder flakyClient
        { noFlags with removeAll := false, filter := "seeding",
                       includeCategory := ["tv", "movies"] }).1 :=
  ⟨rfl, (removeAll_queries sortedOrder flakyClient
    { noFlags with removeAll := true, filter := "seeding", includeCategory := ["tv", "movies"] }
    rfl).1⟩

/-- C7: in a dry run the delete operation is never called, whatever the selection criteria
(`removeAll` included), the remote, the enumeration order and the batch size. -/
theorem dryRun_never_deletes (order : SliceOrder) (B : Nat) (client : Client) (flags : Flags)
    (hdry : flags.dryRun = true) (hashes : List String) (deleteFiles : Bool) :
    Call.DeleteTorrentsCtx hashes deleteFiles ∉ (RunTorrentRemove order B client flags).1 := by
  have hsel := selectHashes_no_delete order client flags hashes deleteFiles
  cases hres : (selectHashes order client flags).2 with
  | error o =>
    rw [RunTorrentRemove_error order B client flags o hres]
    exact hsel
  | ok hs =>
    rw [RunTorrentRemove_ok order B client flags hs hres,
      removeHashes_dryRun B client flags hs hdry, List.append_nil]
    exact hsel

/-- C7 (witness): a dry run of `removeAll`, and the same run without the flag for contrast. -/
theorem dryRun_never_deletes_witness :
    Call.DeleteTorrentsCtx ["all"] false ∉
        (RunTorrentRemove sortedOrder 100 exClient
          { noFlags with dryRun := true, removeAll := true }).1 ∧
    RunTorrentRemove sortedOrder 100 exClient { noFlags with dryRun := true, removeAll := true } =
      ([], .dryRun ["all"]) ∧
    RunTorrentRemove sortedOrder 100 exClient { noFlags with removeAll := true } =
      ([.DeleteTorrentsCtx ["all"] false], .removed ["all"]) :=
  ⟨dryRun_never_deletes sortedOrder 100 exClient
    { noFlags with dryRun := true, removeAll := true } rfl ["all"] false, rfl, rfl⟩

/-- C8: when an inventory query issued by the run fails, that query is the last call of the run:
every earlier call is an answered query, no later query and no delete is issued, and the run ends
in the fatal outcome that names the filter or the category of the failing query, so no target is
produced from the earlier answers. -/
theorem query_failure_aborts (order : SliceOrder) (B : Nat) (client : Client) (flags : Flags)
    (options : TorrentFilterOptions) (err : String)
    (hmem : Call.GetTorrentsCtx options ∈ (RunTorrentRemove order B client flags).1)
    (hfail : client.GetTorrentsCtx options = .error err) :
    (∃ pre, (RunTorrentRemove order B client flags).1 = pre ++ [Call.GetTorrentsCtx options] ∧
      ∀ call ∈ pre, QueryOk client call) ∧
    ((RunTorrentRemove order B client flags).2 = .fatalFilter flags.filter err ∨
      (options.Category ∈ flags.includeCategory ∧
        (RunTorrentRemove order B client flags).2 = .fatalCategory options.Category err)) ∧
    (∃ o, (selectHashes order client flags).2 = .error o) ∧
    ∀ hashes deleteFiles,
      Call.DeleteTorrentsCtx hashes deleteFiles ∉ (RunTorrentRemove order B client flags).1 := by
  have hnotok : ¬ QueryOk client (Call.GetTorrentsCtx options) := by
    rintro ⟨o, torrents, ho, hok⟩
    cases ho
    rw [hok] at hfail
    cases hfail
  rcases selectHashes_trace order client flags with
    ⟨hok, _, fh, cth, _, _, hres⟩ | ⟨pre, options', err', hcalls, hpre, hfail', hres⟩
  · exfalso
    cases hsel : (selectHashes order client flags).2 with
    | error o =>
      rw [RunTorrentRemove_error order B client flags o hsel] at hmem
      exact hnotok (hok _ hmem)
    | ok hs =>
      rw [RunTorrentRemove_ok order B client flags hs hsel] at hmem
      rcases List.mem_append.mp hmem with h | h
      · exact hnotok (hok _ h)
      · obtain ⟨_, hcall⟩ := removeHashes_calls_delete B client flags hs _ h
        cases hcall
  · have herr : ∃ o, (selectHashes order client flags).2 = .error o := by
      rcases hres with h | ⟨_, h⟩ <;> exact ⟨_, h⟩
    obtain ⟨o, ho⟩ := herr
    have hrun := RunTorrentRemove_error order B client flags o ho
    rw [hrun] at hmem
    simp only at hmem
    have hopt : options = options' := by
      rw [hcalls] at hmem
      rcases List.mem_append.mp hmem with h | h
      · exact absurd (hpre _ h) hnotok
      · simpa using h
    subst hopt
    have herr : err' = err := by
      rw [hfail] at hfail'
      cases hfail'
      rfl
    subst herr
    refine ⟨⟨pre, ?_, hpre⟩, ?_, ⟨o, ho⟩, ?_⟩
    · rw [hrun]; exact hcalls
    · rw [hrun]
      rcases hres with h | ⟨hc, h⟩
      · left; rw [ho] at h; cases h; rfl
      · right; rw [ho] at h; cases h; exact ⟨hc, rfl⟩
    · intro hs df
      rw [hrun]
      exact selectHashes_no_delete order client flags hs df

/-- C8 (witness): the query for the first of two categories fails after the filter query was
answered; the run stops there. -/
theorem query_failure_aborts_witness :
    RunTorrentRemove sortedOrder 100 flakyClient
        { noFlags with filter := "seeding", includeCategory := ["tv", "movies"],
                       hashes := ["abc"] } =
      ([.GetTorrentsCtx ⟨"seeding", ""⟩, .GetTorrentsCtx ⟨"seeding", "tv"⟩],
        .fatalCategory "tv" "unreachable") ∧
    ∀ hashes deleteFiles, Call.DeleteTorrentsCtx hashes deleteFiles ∉
      (RunTorrentRemove sortedOrder 100 flakyClient
        { noFlags with filter := "seeding", includeCategory := ["tv", "movies"],
                       hashes := ["abc"] }).1 :=
  ⟨rfl, (query_failure_aborts sortedOrder 100 flakyClient
    { noFlags with filter := "seeding", includeCategory := ["tv", "movies"], hashes := ["abc"] }
    ⟨"seeding", "tv"⟩ "unreachable" (by decide) rfl).2.2.2⟩

/-! ## Claims on the computed target set -/

theorem toFinset_ToSlice (order : SliceOrder) (s : Finset String) :
    (order.ToSlice s).toFinset = s := by
  ext h
  rw [List.mem_toFinset, order.mem_iff]

/-- Supplement to C2: when `removeAll` is unset, a filter or a category is given and every issued
query is answered, a target is computed and it contains every explicit hash. -/
theorem explicit_hashes_in_target (order : SliceOrder) (client : Client) (flags : Flags)
    (hall : flags.removeAll = false)
    (hcrit : flags.filter ≠ "" ∨ flags.includeCategory ≠ [])
    (hq : ∀ call ∈ (selectHashes order client flags).1, QueryOk client call) :
    ∃ hashes, (selectHashes order client flags).2 = .ok hashes ∧
      ∀ h ∈ flags.hashes, h ∈ hashes := by
  rcases selectHashes_trace order client flags with
    ⟨_, _, fh, cth, hfh, hcth, hres⟩ | ⟨pre, options, err, hcalls, _, hfail, _⟩
  · have hcomb : ∃ s, combine fh cth = some s := by
      cases fh with
      | some f => cases cth <;> exact ⟨_, rfl⟩
      | none =>
        cases cth with
        | some c => exact ⟨_, rfl⟩
        | none =>
          rcases hcrit with h | h
          · exact absurd (hfh.mp rfl) h
          · exact absurd (hcth.mp rfl) h
    obtain ⟨s, hs⟩ := hcomb
    refine ⟨order.ToSlice (flags.hashes.toFinset ∪ s), ?_, ?_⟩
    · rw [hres]
      simp [mergeHashes, hall, hs, mapsetUnion, Except.map]
    · intro h hh
      rw [order.mem_iff]
      exact Finset.mem_union_left _ (List.mem_toFinset.mpr hh)
  · obtain ⟨o, torrents, ho, hok⟩ := hq (Call.GetTorrentsCtx options) (by rw [hcalls]; simp)
    cases ho
    rw [hok] at hfail
    cases hfail

/-- C2 (the code at the failing input): with one explicit hash and neither a filter nor a
category, `hashSet` is the nil `catTagHashes` of line 118 and the union of line 122 panics, after
no query at all; no target is computed. -/
theorem explicit_hash_alone_panics :
    RunTorrentRemove sortedOrder 100 exClient { noFlags with hashes := ["abc"] } =
      ([], .panicNilUnion) :=
  rfl

/-- C5 (the code on the claim's inputs): with `removeAll` unset, no filter and no category, both
intermediate sets stay nil, the combined `hashSet` is the nil `catTagHashes` (line 118), it is
passed to the union of line 122 as it is, and the run ends there in a panic, without a call to the
remote and without a target. -/
theorem unset_criteria_panic (order : SliceOrder) (B : Nat) (client : Client) (flags : Flags)
    (hall : flags.removeAll = false) (hf : flags.filter = "")
    (hc : flags.includeCategory = []) :
    (filterQuery client flags.filter).2.map Prod.snd = .ok none ∧
    (categoryQueries client flags.includeCategory flags.includeTags flags.excludeTags
      ⟨"", ""⟩).2 = .ok none ∧
    combine none none = none ∧
    selectHashes order client flags = ([], .error .panicNilUnion) ∧
    RunTorrentRemove order B client flags = ([], .panicNilUnion) := by
  have hsel : selectHashes order client flags = ([], .error .panicNilUnion) := by
    simp only [selectHashes, hf, hc, filterQuery_empty, categoryQueries_nil, mergeHashes, hall]
    rfl
  refine ⟨?_, ?_, rfl, hsel, ?_⟩
  · rw [hf, filterQuery_empty]; rfl
  · rw [hc, categoryQueries_nil]
  · have h2 : (selectHashes order client flags).2 = .error .panicNilUnion := by rw [hsel]
    rw [RunTorrentRemove_error order B client flags _ h2, hsel]

/-- C5 (witness): two explicit hashes in a dry run, no filter, no category. -/
theorem unset_criteria_panic_witness :
    RunTorrentRemove sortedOrder 100 exClient
        { noFlags with dryRun := true, hashes := ["abc", "def"] } = ([], .panicNilUnion) :=
  (unset_criteria_panic sortedOrder 100 exClient
    { noFlags with dryRun := true, hashes := ["abc", "def"] } rfl rfl rfl).2.2.2.2

/-- C3: with `removeAll` unset, a filter, at least one category and every query answered, the
selection computes a duplicate-free target whose set of hashes is
`explicitHashes ∪ (filterSet ∩ catTagSet)`: `filterSet` holds the hashes answered to the
state-filter query and `catTagSet` is the union over the categories of the hashes of the gated
torrents answered to the category queries. -/
theorem filter_and_category_target (order : SliceOrder) (client : Client) (flags : Flags)
    (tf : List Torrent) (tc : String → List Torrent)
    (hall : flags.removeAll = false) (hf : flags.filter ≠ "")
    (hc : flags.includeCategory ≠ [])
    (hqf : client.GetTorrentsCtx ⟨flags.filter, ""⟩ = .ok tf)
    (hqc : ∀ c ∈ flags.includeCategory, client.GetTorrentsCtx ⟨flags.filter, c⟩ = .ok (tc c)) :
    ∃ hashes, (selectHashes order client flags).2 = .ok hashes ∧ hashes.Nodup ∧
      hashes.toFinset =
        flags.hashes.toFinset ∪
          ((tf.map (fun t => t.Hash)).toFinset ∩
            flags.includeCategory.toFinset.biUnion (fun c =>
              (((tc c).filter (keepTorrent flags.includeTags flags.excludeTags)).map
                (fun t => t.Hash)).toFinset)) := by
  have hloop := categoryLoop_ok client flags.includeTags flags.excludeTags flags.includeCategory
    ⟨flags.filter, ""⟩ ∅ tc hqc
  have hsel : (selectHashes order client flags).2 =
      .ok (order.ToSlice (flags.hashes.toFinset ∪
        (addHashes ∅ tf ∩ flags.includeCategory.foldl
          (fun s c => addGated flags.includeTags flags.excludeTags s (tc c)) ∅))) := by
    simp only [selectHashes, filterQuery_ok client flags.filter tf hf hqf,
      categoryQueries_ne_nil _ _ _ _ _ hc, hloop, mergeHashes, hall]
    rfl
  refine ⟨_, hsel, order.nodup _, ?_⟩
  rw [toFinset_ToSlice]
  ext h
  simp only [Finset.mem_union, Finset.mem_inter, mem_addHashes, mem_foldl_addGated,
    List.mem_toFinset, List.mem_map, Finset.mem_biUnion, List.mem_filter, Finset.not_mem_empty,
    false_or]
  constructor
  · rintro (h1 | ⟨⟨t, ht, hh⟩, c, hcm, u, hu, huh, hk⟩)
    · exact Or.inl h1
    · exact Or.inr ⟨⟨t, ht, hh⟩, c, hcm, u, ⟨hu, hk⟩, huh⟩
  · rintro (h1 | ⟨⟨t, ht, hh⟩, c, hcm, u, ⟨hu, hk⟩, huh⟩)
    · exact Or.inl h1
    · exact Or.inr ⟨⟨t, ht, hh⟩, c, hcm, u, hu, huh, hk⟩

/-- C3 (witness): the filter query answers A, B, C and the category query B, C, D; without
explicit hashes the target is the set of B and C. -/
theorem filter_and_category_target_witness :
    ∃ hashes,
      (selectHashes sortedOrder exClient
        { noFlags with filter := "seeding", includeCategory := ["tv"] }).2 = .ok hashes ∧
      hashes.Nodup ∧ hashes.toFinset = {"B", "C"} := by
  obtain ⟨hashes, hsel, hnodup, hset⟩ := filter_and_category_target sortedOrder exClient
    { noFlags with filter := "seeding", includeCategory := ["tv"] }
    [⟨"A", []⟩, ⟨"B", ["x"]⟩, ⟨"C", []⟩] (fun _ => [⟨"B", ["x"]⟩, ⟨"C", []⟩, ⟨"D", ["y"]⟩])
    rfl (by decide) (by decide) rfl (by
      intro c hc
      have hc' : c = "tv" := by simpa [noFlags] using hc
      subst hc'
      rfl)
  refine ⟨hashes, hsel, hnodup, ?_⟩
  rw [hset]
  decide

/-- C4: the tag gate of lines 90-100 keeps a torrent exactly when (no include tag is given or the
torrent carries one of them) and (no exclude tag is given or the torrent carries none of them);
a kept torrent has its hash added and a dropped one leaves the set as it is, so the hashes of the
set after the loop are those already in it and those of the kept torrents.  With include tag x a
torrent tagged y is dropped and one tagged x, y is kept; with exclude tag x a torrent tagged x is
dropped although include tag x matches it. -/
theorem tag_gate (includeTags excludeTags : List String) :
    (∀ t : Torrent, keepTorrent includeTags excludeTags t = true ↔
      (includeTags = [] ∨ ∃ tag ∈ t.Tags, tag ∈ includeTags) ∧
      (excludeTags = [] ∨ ∀ tag ∈ t.Tags, tag ∉ excludeTags)) ∧
    (∀ (s : Finset String) (t : Torrent) (rest : List Torrent),
      addGated includeTags excludeTags s (t :: rest) =
        addGated includeTags excludeTags
          (if keepTorrent includeTags excludeTags t = true then insert t.Hash s else s) rest) ∧
    (∀ (s : Finset String) (torrents : List Torrent) (h : String),
      h ∈ addGated includeTags excludeTags s torrents ↔
        h ∈ s ∨ ∃ t ∈ torrents, t.Hash = h ∧
          (includeTags = [] ∨ ∃ tag ∈ t.Tags, tag ∈ includeTags) ∧
          (excludeTags = [] ∨ ∀ tag ∈ t.Tags, tag ∉ excludeTags)) ∧
    addGated ["x"] [] ∅ [⟨"h1", ["y"]⟩, ⟨"h2", ["x", "y"]⟩] = {"h2"} ∧
    addGated ["x"] ["x"] ∅ [⟨"h1", ["x"]⟩] = ∅ ∧
    addGated [] ["x"] ∅ [⟨"h1", ["x"]⟩, ⟨"h2", []⟩, ⟨"h3", ["y"]⟩] = {"h2", "h3"} := by
  refine ⟨keepTorrent_iff includeTags excludeTags, ?_, ?_, by decide, by decide, by decide⟩
  · intro s t rest
    by_cases hk : keepTorrent includeTags excludeTags t = true <;> simp [addGated, hk]
  · intro s torrents h
    rw [mem_addGated]
    simp only [keepTorrent_iff]

/-! ## Claim on the options of the category queries -/

/-- C10: with a filter and at least one category, every query of the selection carries the
filter: it is the state-filter query or a query for one of the categories made on the same options
value; when every issued query is answered the calls are the filter query followed by one query
with filter and category per category.  For some remote the category stage run on these options
and the category stage run with category-only options compute different sets. -/
theorem category_queries_carry_filter (order : SliceOrder) (client : Client) (flags : Flags)
    (hf : flags.filter ≠ "") (hc : flags.includeCategory ≠ []) :
    (∀ options, Call.GetTorrentsCtx options ∈ (selectHashes order client flags).1 →
      options = ⟨flags.filter, ""⟩ ∨
        ∃ c ∈ flags.includeCategory, options = ⟨flags.filter, c⟩) ∧
    ((∀ call ∈ (selectHashes order client flags).1, QueryOk client call) →
      (selectHashes order client flags).1 =
        Call.GetTorrentsCtx ⟨flags.filter, ""⟩ ::
          flags.includeCategory.map (fun c => Call.GetTorrentsCtx ⟨flags.filter, c⟩)) ∧
    (categoryQueries filteringClient flags.includeCategory [] [] ⟨flags.filter, ""⟩).2 =
      .ok (some ∅) ∧
    (∃ s, (categoryOnlyQueries filteringClient flags.includeCategory [] []).2 = .ok (some s) ∧
      "H" ∈ s) := by
  refine ⟨?_, ?_, ?_, ?_⟩
  · intro options hmem
    have h := (selectHashes_calls_initial order client flags).subset hmem
    simp only [allQueries, hf, if_false, List.singleton_append, List.mem_cons, List.mem_map,
      Call.GetTorrentsCtx.injEq] at h
    rcases h with h | ⟨c, hcm, h⟩
    · exact Or.inl h
    · exact Or.inr ⟨c, hcm, h.symm⟩
  · intro hq
    rcases selectHashes_trace order client flags with
      ⟨_, hcalls, _⟩ | ⟨pre, options, err, hcalls, _, hfail, _⟩
    · rw [hcalls]
      simp [hf]
    · obtain ⟨o, torrents, ho, hok⟩ := hq (Call.GetTorrentsCtx options) (by rw [hcalls]; simp)
      cases ho
      rw [hok] at hfail
      cases hfail
  · have hloop := categoryLoop_ok filteringClient [] [] flags.includeCategory
      ⟨flags.filter, ""⟩ ∅ (fun _ => []) (by
        intro c _
        simp [filteringClient, hf])
    rw [categoryQueries_ne_nil _ _ _ _ _ hc, hloop]
    have hempty : flags.includeCategory.foldl (fun s _ => addGated [] [] s []) ∅ =
        (∅ : Finset String) := by
      ext h
      rw [mem_foldl_addGated]
      simp
    simp only [hempty]
    rfl
  · have hloop := categoryLoop_ok filteringClient [] [] flags.includeCategory
      ⟨"", ""⟩ ∅ (fun _ => [⟨"H", []⟩]) (by
        intro c _
        simp [filteringClient])
    unfold categoryOnlyQueries
    rw [categoryQueries_ne_nil _ _ _ _ _ hc, hloop]
    refine ⟨_, rfl, ?_⟩
    rw [mem_foldl_addGated]
    obtain ⟨c, hcm⟩ := List.exists_mem_of_ne_nil _ hc
    exact Or.inr ⟨c, hcm, ⟨"H", []⟩, by simp, rfl, by decide⟩

/-- C10 (witness): a filter and two categories against a remote that honours the filter. -/
theorem category_queries_carry_filter_witness :
    (selectHashes sortedOrder filteringClient
        { noFlags with filter := "seeding", includeCategory := ["tv", "movies"] }).1 =
      [.GetTorrentsCtx ⟨"seeding", ""⟩, .GetTorrentsCtx ⟨"seeding", "tv"⟩,
        .GetTorrentsCtx ⟨"seeding", "movies"⟩] ∧
    (categoryQueries filteringClient ["tv", "movies"] [] [] ⟨"seeding", ""⟩).2 = .ok (some ∅) :=
  ⟨(category_queries_carry_filter sortedOrder filteringClient
      { noFlags with filter := "seeding", includeCategory := ["tv", "movies"] }
      (by decide) (by decide)).2.1
      (selectHashes_queryOk sortedOrder filteringClient _ (fun _ => ⟨_, rfl⟩)),
    (category_queries_carry_filter sortedOrder filteringClient
      { noFlags with filter := "seeding", includeCategory := ["tv", "movies"] }
      (by decide) (by decide)).2.2.1⟩

/-! ## Claim on the batches -/

theorem chunk_count_step (B m : Nat) (hB : 0 < B) (hm : 0 < m) :
    (m + B - 1) / B = (m - B + B - 1) / B + 1 := by
  rcases Nat.lt_or_ge m B with h | h
  · have h0 : m - B = 0 := Nat.sub_eq_zero_of_le (Nat.le_of_lt h)
    have h1 : (B - 1) / B = 0 := Nat.div_eq_of_lt (by omega)
    have h2 : (m + B - 1) / B = 1 := by
      apply Nat.div_eq_of_lt_le <;> omega
    rw [h0, Nat.zero_add, h1, h2]
  · have h3 : m + B - 1 = (m - B + B - 1) + B := by omega
    rw [h3, Nat.add_div_right _ hB]

/-- With a positive batch size, enough fuel and a callback that succeeds, the loop started at
`start` makes the calls `[start + k * B, min (start + (k + 1) * B) n)`, in order. -/
theorem batchLoop_ok {ε : Type} (B n : Nat) (fn : Nat → Nat → Except ε Unit) (hB : 0 < B)
    (hok : ∀ s e, fn s e = .ok ()) (fuel start : Nat) (hfuel : n - start ≤ fuel) :
    batchLoop B n fn fuel start =
      some ((List.range ((n - start + B - 1) / B)).map
        (fun k => (start + k * B, min (start + (k + 1) * B) n)), .ok ()) := by
  induction fuel generalizing start with
  | zero =>
    have hle : n ≤ start := by omega
    have h0 : (n - start + B - 1) / B = 0 := Nat.div_eq_of_lt (by omega)
    rw [h0]
    simp [batchLoop, hle]
  | succ fuel ih =>
    by_cases hle : n ≤ start
    · have h0 : (n - start + B - 1) / B = 0 := Nat.div_eq_of_lt (by omega)
      rw [h0]
      simp [batchLoop, hle]
    · have hstep := chunk_count_step B (n - start) hB (by omega)
      have hsub : n - start - B = n - (start + B) := by omega
      rw [hsub] at hstep
      simp only [batchLoop, hle, if_false, hok, ih (start + B) (by omega), Option.map_some']
      rw [hstep, List.range_succ_eq_map, List.map_cons, List.map_map]
      simp only [Nat.zero_mul, Nat.add_zero, Nat.zero_add, Nat.one_mul]
      have hmap : ∀ l : List Nat,
          l.map (fun k => (start + B + k * B, min (start + B + (k + 1) * B) n)) =
            l.map ((fun k => (start + k * B, min (start + (k + 1) * B) n)) ∘ Nat.succ) := by
        intro l
        apply List.map_congr_left
        intro k _
        simp only [Function.comp, Nat.succ_eq_add_one]
        have e1 : start + B + k * B = start + (k + 1) * B := by ring
        have e2 : start + B + (k + 1) * B = start + (k + 1 + 1) * B := by ring
        rw [e1, e2]
      rw [hmap]

/-- The chunks passed to the callback by a loop that ends with success, put end to end, are the
list from `start` on. -/
theorem batchLoop_cover {ε : Type} (B : Nat) (hashes : List String)
    (fn : Nat → Nat → Except ε Unit) (fuel start : Nat) (bounds : List (Nat × Nat))
    (res : Except ε Unit)
    (hrun : batchLoop B hashes.length fn fuel start = some (bounds, res))
    (hres : res = .ok ()) :
    (bounds.map (fun b => slice hashes b.1 b.2)).flatten = hashes.drop start := by
  subst hres
  induction fuel generalizing start bounds with
  | zero =>
    by_cases hle : hashes.length ≤ start
    · simp [batchLoop, hle] at hrun
      rw [hrun, List.drop_eq_nil_of_le hle]
      rfl
    · simp [batchLoop, hle] at hrun
  | succ fuel ih =>
    by_cases hle : hashes.length ≤ start
    · simp [batchLoop, hle] at hrun
      rw [hrun, List.drop_eq_nil_of_le hle]
      rfl
    · simp only [batchLoop, hle, if_false] at hrun
      cases hfn : fn start (min (start + B) hashes.length) with
      | error e =>
        simp only [hfn, Option.some.injEq, Prod.mk.injEq] at hrun
        cases hrun.2
      | ok u =>
        simp only [hfn] at hrun
        cases hrec : batchLoop B hashes.length fn fuel (start + B) with
        | none => simp [hrec] at hrun
        | some r =>
          obtain ⟨bounds', res'⟩ := r
          simp only [hrec, Option.map_some', Option.some.injEq, Prod.mk.injEq] at hrun
          obtain ⟨hb, hr⟩ := hrun
          subst hr
          have ih' := ih (start + B) bounds' hrec
          rw [← hb, List.map_cons, List.flatten_cons, ih']
          have htake : slice hashes start (min (start + B) hashes.length) =
              (hashes.drop start).take B := by
            unfold slice
            apply List.take_eq_take.mpr
            rw [List.length_drop]
            omega
          rw [htake, ← List.drop_drop, List.take_append_drop]

/-- C9: for a positive batch size `B` and a callback that always succeeds, `batchRequests` on a
list of `n` hashes ends with success after exactly `⌈n / B⌉` calls, the `k`-th (from 0) with the
bounds `[k * B, min ((k + 1) * B) n)`, in order; the chunks within these bounds, put end to end,
are the whole list.  In the remove command (line 144) the `k`-th call deletes exactly
`hashes[k * B : min ((k + 1) * B) n]`, and the run ends with all of `hashes` removed. -/
theorem batchRequests_chunks (B : Nat) (hB : 0 < B) (hashes : List String) :
    (∀ (ε : Type) (fn : Nat → Nat → Except ε Unit), (∀ s e, fn s e = .ok ()) →
      batchRequests B hashes fn =
        some ((List.range ((hashes.length + B - 1) / B)).map
          (fun k => (k * B, min ((k + 1) * B) hashes.length)), .ok ())) ∧
    ((List.range ((hashes.length + B - 1) / B)).map
      (fun k => slice hashes (k * B) (min ((k + 1) * B) hashes.length))).flatten = hashes ∧
    (∀ (client : Client) (flags : Flags), flags.dryRun = false →
      (hashes ≠ [] ∨ flags.removeAll = true) →
      (∀ hs, client.DeleteTorrentsCtx hs flags.deleteFiles = .ok ()) →
      removeHashes B client flags hashes =
        ((List.range ((hashes.length + B - 1) / B)).map
          (fun k => Call.DeleteTorrentsCtx
            (slice hashes (k * B) (min ((k + 1) * B) hashes.length)) flags.deleteFiles),
          .removed hashes)) := by
  have hbatch : ∀ (ε : Type) (fn : Nat → Nat → Except ε Unit), (∀ s e, fn s e = .ok ()) →
      batchRequests B hashes fn =
        some ((List.range ((hashes.length + B - 1) / B)).map
          (fun k => (k * B, min ((k + 1) * B) hashes.length)), .ok ()) := by
    intro ε fn hok
    have h := batchLoop_ok B hashes.length fn hB hok hashes.length 0 (by omega)
    simpa [batchRequests] using h
  refine ⟨hbatch, ?_, ?_⟩
  · have h := hbatch Unit (fun _ _ => .ok ()) (fun _ _ => rfl)
    have hc := batchLoop_cover B hashes (fun _ _ => .ok ()) hashes.length 0 _ _ h rfl
    simpa [List.map_map, Function.comp] using hc
  · intro client flags hdry hne hdel
    have h := hbatch String
      (fun start stop => client.DeleteTorrentsCtx (slice hashes start stop) flags.deleteFiles)
      (fun s e => hdel _)
    have hguard : ¬ (hashes.length = 0 ∧ ¬ flags.removeAll = true) := by
      rintro ⟨h0, hall⟩
      rcases hne with h1 | h1
      · exact h1 (List.length_eq_zero.mp h0)
      · exact hall h1
    simp only [removeHashes, hguard, if_false, hdry, h, List.map_map, Function.comp]
    rfl

/-- C9 (witness): 250 hashes and batch size 100 give the three calls `[0, 100)`, `[100, 200)`,
`[200, 250)`; no hash gives no call; exactly 100 hashes give the single call `[0, 100)`. -/
theorem batchRequests_chunks_witness :
    batchRequests 100 (List.replicate 250 "h") (fun _ _ => (.ok () : Except String Unit)) =
      some ([(0, 100), (100, 200), (200, 250)], .ok ()) ∧
    batchRequests 100 [] (fun _ _ => (.ok () : Except String Unit)) = some ([], .ok ()) ∧
    batchRequests 100 (List.replicate 100 "h") (fun _ _ => (.ok () : Except String Unit)) =
      some ([(0, 100)], .ok ()) := by
  refine ⟨?_, ?_, ?_⟩
  · rw [(batchRequests_chunks 100 (by decide) (List.replicate 250 "h")).1 String _
      (fun _ _ => rfl)]
    simp only [List.length_replicate]
    rfl
  · rw [(batchRequests_chunks 100 (by decide) []).1 String _ (fun _ _ => rfl)]
    rfl
  · rw [(batchRequests_chunks 100 (by decide) (List.replicate 100 "h")).1 String _
      (fun _ _ => rfl)]
    simp only [List.length_replicate]
    rfl

end QbtCli

